import Mathlib

/-!
Shallow embedding of the document-to-speech application's text-to-speech core:

* the text chunker and text-cleaning utilities of `lib/text-to-speech.ts`,
  with JS strings modelled as `List Char`;
* the `TextToSpeechEngine` wrapper class of the same file, modelled as a
  state machine over its mutable fields together with the settling behaviour
  of the promise returned by `speak`;
* the playback handlers of `components/tts-controls.tsx`.  React `useState`
  variables read inside a callback closure denote the values captured when
  that closure was created; `set*` calls update the external component state,
  which the running closure does not re-read.
-/

namespace DocTTS

/-- ASCII core of JS whitespace (space, tab, newline, carriage return), as
matched by `\s` and by `String.prototype.trim` on the texts this app handles. -/
def isWS (c : Char) : Bool := c == ' ' || c == '\t' || c == '\n' || c == '\r'

/-- Sentence-terminator characters of the regex class `[.!?]`. -/
def isTerm (c : Char) : Bool := c == '.' || c == '!' || c == '?'

/-- Remove trailing characters satisfying `p` (helper for `trim`). -/
def dropEndWhile (p : Char → Bool) (l : List Char) : List Char :=
  (l.reverse.dropWhile p).reverse

/-- JS `String.prototype.trim`: strip leading and trailing whitespace. -/
def trim (l : List Char) : List Char := dropEndWhile isWS (l.dropWhile isWS)

/-- JS `text.split(/[.!?]+/)`: the fragments between maximal runs of sentence
terminators, including the empty fragments JS produces at the ends (e.g.
`".a"` gives `["", "a"]` and `"a."` gives `["a", ""]`; the empty string gives
`[""]`). -/
def splitTerm : List Char → List (List Char)
  | [] => [[]]
  | c :: cs =>
    if isTerm c then
      match cs with
      | c2 :: _ => if isTerm c2 then splitTerm cs else [] :: splitTerm cs
      | [] => [[], []]
    else
      match splitTerm cs with
      | h :: t => (c :: h) :: t
      | [] => [[c]]

/-- The greedy sentence-accumulation loop of `splitTextIntoChunks`
(`for (const sentence of sentences) { ... }`), returning the sealed chunks and
the final running buffer.  A sentence is sealed off exactly when appending it
would exceed `m` characters (separator not counted, as in the source) and the
buffer is non-empty. -/
def chunkLoop (m : Nat) : List (List Char) → List (List Char) → List Char →
    List (List Char) × List Char
  | [], chunks, cur => (chunks, cur)
  | s :: rest, chunks, cur =>
    let t := trim s
    if m < cur.length + t.length ∧ 0 < cur.length then
      chunkLoop m rest (chunks ++ [trim cur ++ ['.']]) t
    else
      chunkLoop m rest chunks (cur ++ (if cur.isEmpty then [] else ['.', ' ']) ++ t)

/-- The post-loop step of `splitTextIntoChunks`: seal the final buffer when its
trimmed form is non-empty (`if (currentChunk.trim())`), appending a period
unless the buffer already ends with one. -/
def finalizeChunks (chunks : List (List Char)) (cur : List Char) : List (List Char) :=
  if 0 < (trim cur).length then
    chunks ++ [trim cur ++ (if cur.getLast? = some '.' then [] else ['.'])]
  else chunks

/-- `splitTextIntoChunks(text, maxChunkSize)` from `lib/text-to-speech.ts`:
split on sentence terminators, drop whitespace-only fragments, greedily pack
trimmed sentences into chunks, and fall back to `[text]` when no chunk was
produced. -/
def splitTextIntoChunks (text : List Char) (m : Nat) : List (List Char) :=
  let sentences := (splitTerm text).filter fun s => decide (0 < (trim s).length)
  let p := chunkLoop m sentences [] []
  let chunks := finalizeChunks p.1 p.2
  if 0 < chunks.length then chunks else [text]

/-- The sentence sequence of a text: the fragments produced by splitting on
`[.!?]+`, with whitespace-only fragments discarded (exactly the filter the
chunker applies) and each fragment trimmed.  This is the spec-side notion used
to state the round-trip property of the chunker. -/
def sentencesOf (l : List Char) : List (List Char) :=
  ((splitTerm l).filter fun s => decide (0 < (trim s).length)).map trim

/-- JS `text.replace(/\s+/g, " ")`: collapse each maximal whitespace run into
a single space. -/
def collapseWS : List Char → List Char
  | [] => []
  | c :: cs =>
    if isWS c then
      match cs with
      | c2 :: _ => if isWS c2 then collapseWS cs else ' ' :: collapseWS cs
      | [] => [' ']
    else c :: collapseWS cs

/-- JS `text.replace(/\n\s*\n/g, "\n\n")`: a greedy match starting at a `'\n'`
consumes the following whitespace run up to (and including) the last `'\n'`
in that run and is replaced by two newlines; scanning resumes after the match. -/
def replaceNlNl (l : List Char) : List Char :=
  match l with
  | [] => []
  | c :: cs =>
    if c = '\n' then
      let run := cs.takeWhile isWS
      if hm : '\n' ∈ run then
        let post := (run.reverse.takeWhile fun d => decide (d ≠ '\n')).reverse
        '\n' :: '\n' :: replaceNlNl (post ++ cs.dropWhile isWS)
      else c :: replaceNlNl cs
    else c :: replaceNlNl cs
termination_by l.length
decreasing_by
  · have key : ∀ (x : List Char), '\n' ∈ x →
        (x.takeWhile fun d => decide (d ≠ '\n')).length < x.length := by
      intro x hx
      induction x with
      | nil => cases hx
      | cons a as ih =>
        by_cases hpa : a = '\n'
        · subst hpa
          simp [List.takeWhile_cons]
        · have ha : (decide (a ≠ '\n')) = true := by simp [hpa]
          have hmem : '\n' ∈ as := by
            rcases List.mem_cons.mp hx with h | h
            · exact absurd h.symm hpa
            · exact h
          simp only [List.takeWhile_cons, ha, if_true, List.length_cons]
          exact Nat.succ_lt_succ (ih hmem)
    have h1 : ((cs.takeWhile isWS).reverse.takeWhile fun d => decide (d ≠ '\n')).length
        < (cs.takeWhile isWS).reverse.length := by
      refine key _ ?_
      simpa [List.mem_reverse] using hm
    have h2 : (cs.takeWhile isWS).length + (cs.dropWhile isWS).length = cs.length := by
      calc (cs.takeWhile isWS).length + (cs.dropWhile isWS).length
          = (cs.takeWhile isWS ++ cs.dropWhile isWS).length := (List.length_append _ _).symm
        _ = cs.length := by rw [List.takeWhile_append_dropWhile]
    simp only [List.length_append, List.length_reverse, List.length_cons] at *
    omega
  · simp only [List.length_cons]; omega
  · simp only [List.length_cons]; omega

/-- `cleanExtractedText` from `lib/text-to-speech.ts`:
`text.replace(/\s+/g, " ").replace(/\n\s*\n/g, "\n\n").trim()`. -/
def cleanExtractedText (text : List Char) : List Char :=
  trim (replaceNlNl (collapseWS text))

/-- Specification-side: the running buffer built by the chunk loop from a
group of sentences, joined by `". "`. -/
def joinSent : List (List Char) → List Char
  | [] => []
  | [t] => t
  | t :: ts => t ++ '.' :: ' ' :: joinSent ts

/-- Specification-side: a sealed chunk is a joined group of sentences with a
`"."` appended. -/
def sealChunk (g : List (List Char)) : List Char := joinSent g ++ ['.']

/-- A clean sentence: non-empty, free of sentence terminators, and equal to
its own trim. -/
def Clean (t : List Char) : Prop :=
  t ≠ [] ∧ (∀ c ∈ t, isTerm c = false) ∧ trim t = t

/-- Specification-side: two adjacent characters are not both whitespace. -/
def SpacedOK (a b : Char) : Prop := isWS a = false ∨ isWS b = false

namespace TextToSpeechEngine

/-- The mutable fields of the `TextToSpeechEngine` class: `isPlaying`,
`isPaused`, and whether `currentUtterance` is non-null. -/
structure State where
  isPlaying : Bool
  isPaused : Bool
  hasUtterance : Bool
deriving Repr, DecidableEq

/-- Initial field values: `isPlaying = false`, `isPaused = false`,
`currentUtterance = null` — the `Idle` state. -/
def init : State := ⟨false, false, false⟩

/-- `stop()`: cancel the synthesizer and clear all flags and the current
utterance, unconditionally. -/
def stop (_s : State) : State := ⟨false, false, false⟩

/-- The state effect of calling `speak`: an implicit `stop()` when already
playing, then (after the settling delay) `currentUtterance` is set to the new
utterance. -/
def speakCall (s : State) : State :=
  let s1 := if s.isPlaying then stop s else s
  { s1 with hasUtterance := true }

/-- The utterance's `onstart` callback: playing, not paused. -/
def onStart (s : State) : State := { s with isPlaying := true, isPaused := false }

/-- The state part of the utterance's `onend` callback. -/
def onEnd (_s : State) : State := ⟨false, false, false⟩

/-- The state part of the utterance's `onerror` callback. -/
def onError (_s : State) : State := ⟨false, false, false⟩

/-- `pause()`: only acts when playing and not yet paused. -/
def pause (s : State) : State :=
  if s.isPlaying && !s.isPaused then { s with isPaused := true } else s

/-- `resume()`: only acts when paused. -/
def resume (s : State) : State :=
  if s.isPaused then { s with isPaused := false } else s

/-- Terminal utterance events: a normal end, or an error with a code. -/
inductive UtteranceEnd where
  | ended : UtteranceEnd
  | errored : String → UtteranceEnd

/-- How the promise returned by `speak` settles when the utterance terminates:
`onend` resolves it; `onerror` resolves it when the error code is
`"canceled"` and rejects it with a message carrying the code otherwise. -/
def settle : UtteranceEnd → Except String Unit
  | .ended => .ok ()
  | .errored code =>
    if code = "canceled" then .ok ()
    else .error ("Speech synthesis error: " ++ code)

/-- One operation or callback acting on the engine state. -/
inductive Op where
  | speakCall | onStart | onEnd | onError | pause | resume | stop
deriving Repr, DecidableEq

/-- State transition performed by one operation. -/
def step (s : State) : Op → State
  | .speakCall => speakCall s
  | .onStart => onStart s
  | .onEnd => onEnd s
  | .onError => onError s
  | .pause => pause s
  | .resume => resume s
  | .stop => stop s

end TextToSpeechEngine

namespace TTSControls

/-- React component state of `TTSControls` relevant to playback. -/
structure SeqState where
  isPlaying : Bool
  isPaused : Bool
  currentChunk : Nat
deriving Repr, DecidableEq

/-- `handleNext`: advance only when `currentChunk < textChunks.length - 1`
(in JS, `length - 1` is `-1` for zero chunks, so the guard also fails there,
matching `Nat` truncated subtraction). -/
def handleNext (currentChunk chunkCount : Nat) : Nat :=
  if currentChunk < chunkCount - 1 then currentChunk + 1 else currentChunk

/-- `handlePrevious`: go back only when `currentChunk > 0`. -/
def handlePrevious (currentChunk : Nat) : Nat :=
  if 0 < currentChunk then currentChunk - 1 else currentChunk

/-- The `for` loop of `handlePlay`, written with the loop count
`remaining = textChunks.length - i` as fuel (the loop runs while
`i < textChunks.length`).  The manual-stop check `if (!isPlaying) break` reads
the `isPlaying` value captured by the `useCallback` closure, which is constant
for the whole invocation; `setCurrentChunk(i)` updates the external state; a
rejecting `speak` is caught and the loop continues with the next chunk, so the
list of chunk indices on which `speak` is invoked does not depend on which
chunks fail.  Returns the external state and that list of indices. -/
def playLoopAux (capIsPlaying : Bool) : Nat → Nat → SeqState → SeqState × List Nat
  | 0, _, ext => (ext, [])
  | remaining + 1, i, ext =>
    if capIsPlaying then
      let ext1 := { ext with currentChunk := i }
      let p := playLoopAux capIsPlaying remaining (i + 1) ext1
      (p.1, i :: p.2)
    else (ext, [])

/-- The `for` loop of `handlePlay`, from index `i` up to `len - 1`. -/
def playLoop (capIsPlaying : Bool) (len i : Nat) (ext : SeqState) : SeqState × List Nat :=
  playLoopAux capIsPlaying (len - i) i ext

/-- `handlePlay` from `tts-controls.tsx`, for one invocation with no
interleaved events: `cap` is the component state captured by the `useCallback`
closure that is being run, `ext` the external component state at invocation
time, and `chunkCount` the captured `textChunks.length`.  After the loop, the
index is reset to `0` only when the captured `currentChunk` is already at least
`textChunks.length - 1`, and `isPlaying` is set to `false`.  Returns the final
component state together with the indices of the chunks on which `speak` was
invoked. -/
def handlePlay (cap : SeqState) (chunkCount : Nat) (ext : SeqState) : SeqState × List Nat :=
  let ext1 := { ext with isPlaying := true, isPaused := false }
  let r := playLoop cap.isPlaying chunkCount cap.currentChunk ext1
  let ext2 := if chunkCount - 1 ≤ cap.currentChunk then { r.1 with currentChunk := 0 } else r.1
  ({ ext2 with isPlaying := false }, r.2)

end TTSControls

/-! ### Helper lemmas on `dropWhile`, `dropEndWhile` and `trim` -/

/-- Nothing at the head of a `dropWhile` result still satisfies the predicate. -/
theorem head?_of_dropWhile {p : Char → Bool} :
    ∀ {l : List Char} {c : Char}, (l.dropWhile p).head? = some c → p c = false := by
  intro l
  induction l with
  | nil => intro c h; cases h
  | cons a as ih =>
    intro c h
    by_cases hpa : p a = true
    · rw [List.dropWhile_cons, if_pos hpa] at h
      exact ih h
    · rw [List.dropWhile_cons, if_neg hpa] at h
      simp only [List.head?_cons, Option.some.injEq] at h
      subst h
      simpa using hpa

/-- `dropWhile` keeps a list whose head falsifies the predicate. -/
theorem dropWhile_eq_self_of_head {p : Char → Bool} {l : List Char}
    (h : ∀ c, l.head? = some c → p c = false) : l.dropWhile p = l := by
  cases l with
  | nil => rfl
  | cons a as =>
    have ha := h a rfl
    rw [List.dropWhile_cons, if_neg (by simp [ha])]

/-- `dropEndWhile` keeps a list whose last element falsifies the predicate. -/
theorem dropEndWhile_eq_self_of_getLast {p : Char → Bool} {l : List Char}
    (h : ∀ c, l.getLast? = some c → p c = false) : dropEndWhile p l = l := by
  unfold dropEndWhile
  rw [dropWhile_eq_self_of_head, List.reverse_reverse]
  intro c hc
  exact h c (by rwa [List.head?_reverse] at hc)

/-- A list whose two ends are not whitespace is its own trim. -/
theorem trim_eq_self {l : List Char}
    (h1 : ∀ c, l.head? = some c → isWS c = false)
    (h2 : ∀ c, l.getLast? = some c → isWS c = false) : trim l = l := by
  unfold trim
  rw [dropWhile_eq_self_of_head h1]
  exact dropEndWhile_eq_self_of_getLast h2

theorem trim_nil : trim [] = [] := rfl

/-- `dropEndWhile` yields a sublist. -/
theorem dropEndWhile_sublist (p : Char → Bool) (l : List Char) :
    (dropEndWhile p l).Sublist l := by
  unfold dropEndWhile
  have h := (List.dropWhile_sublist (l := l.reverse) p).reverse
  simpa using h

/-- `trim` yields a sublist. -/
theorem trim_sublist (l : List Char) : (trim l).Sublist l :=
  (dropEndWhile_sublist _ _).trans (List.dropWhile_sublist _)

theorem mem_trim {l : List Char} {c : Char} (h : c ∈ trim l) : c ∈ l :=
  (trim_sublist l).subset h

/-- The trim of a list is empty exactly when the list is all whitespace. -/
theorem trim_eq_nil_iff {l : List Char} : trim l = [] ↔ ∀ c ∈ l, isWS c = true := by
  constructor
  · intro h c hc
    unfold trim dropEndWhile at h
    have h' : (l.dropWhile isWS).reverse.dropWhile isWS = [] := by
      have := congrArg List.reverse h
      simpa using this
    have hall : ∀ x ∈ l.dropWhile isWS, isWS x = true := by
      intro x hx
      exact List.dropWhile_eq_nil_iff.mp h' x (List.mem_reverse.mpr hx)
    have hc' : c ∈ l.takeWhile isWS ++ l.dropWhile isWS := by
      rw [List.takeWhile_append_dropWhile]; exact hc
    rcases List.mem_append.mp hc' with h1 | h1
    · exact List.mem_takeWhile_imp h1
    · exact hall c h1
  · intro h
    have hdw : l.dropWhile isWS = [] := List.dropWhile_eq_nil_iff.mpr h
    unfold trim
    rw [hdw]
    rfl

/-- `dropEndWhile` produces an initial segment of its input. -/
theorem dropEndWhile_prefix_self (p : Char → Bool) (l : List Char) :
    dropEndWhile p l <+: l := by
  unfold dropEndWhile
  have h : l.reverse.dropWhile p <:+ l.reverse := List.dropWhile_suffix p
  have h2 := List.reverse_prefix.mpr h
  simpa using h2

/-- A non-empty initial segment has the same head. -/
theorem head?_of_prefix_of_ne_nil {l₁ l₂ : List Char} (h : l₁ <+: l₂) (hne : l₁ ≠ []) :
    l₂.head? = l₁.head? := by
  obtain ⟨r, rfl⟩ := h
  obtain ⟨a, t, rfl⟩ := List.exists_cons_of_ne_nil hne
  rfl

/-- The head of a trim result is not whitespace. -/
theorem trim_head_not_ws {l : List Char} {c : Char} (h : (trim l).head? = some c) :
    isWS c = false := by
  have hpre : trim l <+: l.dropWhile isWS := dropEndWhile_prefix_self isWS _
  have hne : trim l ≠ [] := by intro h0; rw [h0] at h; cases h
  have heq : (l.dropWhile isWS).head? = (trim l).head? := head?_of_prefix_of_ne_nil hpre hne
  exact head?_of_dropWhile (by rw [heq]; exact h)

/-- The last element of a trim result is not whitespace. -/
theorem trim_getLast_not_ws {l : List Char} {c : Char} (h : (trim l).getLast? = some c) :
    isWS c = false := by
  have h2 : (trim l).reverse.head? = some c := by rwa [List.head?_reverse]
  unfold trim dropEndWhile at h2
  rw [List.reverse_reverse] at h2
  exact head?_of_dropWhile h2

/-- Trimming is idempotent. -/
theorem trim_trim (l : List Char) : trim (trim l) = trim l := by
  refine trim_eq_self ?_ ?_
  · intro c hc; exact trim_head_not_ws hc
  · intro c hc; exact trim_getLast_not_ws hc

/-- Trimming discards a leading whitespace character. -/
theorem trim_cons_ws {c : Char} {l : List Char} (h : isWS c = true) :
    trim (c :: l) = trim l := by
  unfold trim
  rw [List.dropWhile_cons, if_pos h]

/-! ### Helper lemmas on `splitTerm` -/

theorem splitTerm_nil : splitTerm [] = [[]] := rfl

theorem splitTerm_term_nil {c : Char} (h : isTerm c = true) :
    splitTerm [c] = [[], []] := by
  simp [splitTerm, h]

theorem splitTerm_term_term {c c2 : Char} {cs : List Char}
    (h : isTerm c = true) (h2 : isTerm c2 = true) :
    splitTerm (c :: c2 :: cs) = splitTerm (c2 :: cs) := by
  simp [splitTerm, h, h2]

theorem splitTerm_term_nonterm {c c2 : Char} {cs : List Char}
    (h : isTerm c = true) (h2 : isTerm c2 = false) :
    splitTerm (c :: c2 :: cs) = [] :: splitTerm (c2 :: cs) := by
  simp [splitTerm, h, h2]

theorem splitTerm_nonterm {c : Char} {cs : List Char} {hd : List Char} {tl : List (List Char)}
    (h : isTerm c = false) (heq : splitTerm cs = hd :: tl) :
    splitTerm (c :: cs) = (c :: hd) :: tl := by
  simp [splitTerm, h, heq]

/-- `splitTerm` never returns the empty list of fragments. -/
theorem splitTerm_ne_nil : ∀ (l : List Char), splitTerm l ≠ [] := by
  intro l
  induction l with
  | nil => simp [splitTerm_nil]
  | cons c cs ih =>
    by_cases hc : isTerm c = true
    · cases cs with
      | nil => simp [splitTerm_term_nil hc]
      | cons c2 cs2 =>
        by_cases hc2 : isTerm c2 = true
        · rw [splitTerm_term_term hc hc2]; exact ih
        · rw [splitTerm_term_nonterm hc (by simpa using hc2)]; simp
    · have hc' : isTerm c = false := by simpa using hc
      obtain ⟨hd, tl, heq⟩ : ∃ hd tl, splitTerm cs = hd :: tl := by
        cases hsp : splitTerm cs with
        | nil => exact absurd hsp ih
        | cons x y => exact ⟨x, y, rfl⟩
      rw [splitTerm_nonterm hc' heq]; simp

/-- Fragments produced by `splitTerm` contain no sentence terminators. -/
theorem no_term_of_mem_splitTerm :
    ∀ {l s : List Char} {c : Char}, s ∈ splitTerm l → c ∈ s → isTerm c = false := by
  intro l
  induction l with
  | nil =>
    intro s c hs hc
    rw [splitTerm_nil] at hs
    simp at hs
    subst hs; cases hc
  | cons a as ih =>
    intro s c hs hc
    by_cases ha : isTerm a = true
    · cases as with
      | nil =>
        rw [splitTerm_term_nil ha] at hs
        simp at hs
        subst hs; cases hc
      | cons a2 as2 =>
        by_cases ha2 : isTerm a2 = true
        · rw [splitTerm_term_term ha ha2] at hs; exact ih hs hc
        · rw [splitTerm_term_nonterm ha (by simpa using ha2)] at hs
          rcases List.mem_cons.mp hs with h | h
          · subst h; cases hc
          · exact ih h hc
    · have ha' : isTerm a = false := by simpa using ha
      obtain ⟨hd, tl, heq⟩ : ∃ hd tl, splitTerm as = hd :: tl := by
        cases hsp : splitTerm as with
        | nil => exact absurd hsp (splitTerm_ne_nil as)
        | cons x y => exact ⟨x, y, rfl⟩
      rw [splitTerm_nonterm ha' heq] at hs
      rcases List.mem_cons.mp hs with h | h
      · subst h
        rcases List.mem_cons.mp hc with h2 | h2
        · subst h2; exact ha'
        · exact ih (by rw [heq]; exact List.mem_cons_self hd tl) h2
      · exact ih (by rw [heq]; exact List.mem_cons_of_mem _ h) hc

/-- Splitting after a leading terminator: one empty fragment, then the split
of the remainder with its leading terminator run removed. -/
theorem splitTerm_term_cons :
    ∀ (y : List Char) {a : Char}, isTerm a = true →
      splitTerm (a :: y) = [] :: splitTerm (y.dropWhile isTerm) := by
  intro y
  induction y with
  | nil =>
    intro a ha
    rw [splitTerm_term_nil ha]
    rfl
  | cons d ys ih =>
    intro a ha
    by_cases hd : isTerm d = true
    · rw [splitTerm_term_term ha hd, ih hd, List.dropWhile_cons, if_pos hd]
    · have hd' : isTerm d = false := by simpa using hd
      rw [splitTerm_term_nonterm ha hd', List.dropWhile_cons, if_neg (by simp [hd'])]

/-- Splitting a terminator-free fragment followed by `'.'`: the fragment comes
off whole, and the remainder is split with its leading terminator run removed. -/
theorem splitTerm_append_dot :
    ∀ (t z : List Char), t ≠ [] → (∀ c ∈ t, isTerm c = false) →
      splitTerm (t ++ '.' :: z) = t :: splitTerm (z.dropWhile isTerm) := by
  intro t
  induction t with
  | nil => intro z h _; exact absurd rfl h
  | cons c t' ih =>
    intro z _ hno
    have hc : isTerm c = false := hno c (List.mem_cons_self _ _)
    cases t' with
    | nil =>
      have h1 : splitTerm ('.' :: z) = [] :: splitTerm (z.dropWhile isTerm) :=
        splitTerm_term_cons z (by decide)
      rw [show ([c] ++ '.' :: z) = c :: '.' :: z from rfl, splitTerm_nonterm hc h1]
    | cons c2 t2 =>
      have h1 := ih z (by simp) (fun d hd => hno d (List.mem_cons_of_mem _ hd))
      rw [show ((c :: c2 :: t2) ++ '.' :: z) = c :: ((c2 :: t2) ++ '.' :: z) from rfl,
        splitTerm_nonterm hc h1]

/-! ### Helper lemmas on `joinSent`, `sealChunk` and `sentencesOf` -/

theorem joinSent_nil : joinSent [] = [] := rfl

theorem joinSent_singleton (t : List Char) : joinSent [t] = t := rfl

theorem joinSent_cons_of_ne_nil {t : List Char} {ts : List (List Char)} (h : ts ≠ []) :
    joinSent (t :: ts) = t ++ '.' :: ' ' :: joinSent ts := by
  cases ts with
  | nil => exact absurd rfl h
  | cons u us => rfl

/-- The join of a non-empty group of non-empty sentences is non-empty. -/
theorem joinSent_ne_nil :
    ∀ {g : List (List Char)}, (∀ t ∈ g, t ≠ []) → g ≠ [] → joinSent g ≠ [] := by
  intro g hg hne
  cases g with
  | nil => exact absurd rfl hne
  | cons t ts =>
    cases ts with
    | nil => simpa [joinSent_singleton] using hg t (by simp)
    | cons u us =>
      rw [joinSent_cons_of_ne_nil (by simp)]
      have ht : t ≠ [] := hg t (by simp)
      simp

theorem joinSent_head? {t : List Char} {ts : List (List Char)} (h : t ≠ []) :
    (joinSent (t :: ts)).head? = t.head? := by
  cases ts with
  | nil => rfl
  | cons u us =>
    obtain ⟨a, t', rfl⟩ := List.exists_cons_of_ne_nil h
    rw [joinSent_cons_of_ne_nil (by simp)]
    rfl

/-- The join of a non-empty clean group ends in a character that is neither a
terminator nor whitespace. -/
theorem joinSent_getLast :
    ∀ {g : List (List Char)}, (∀ t ∈ g, Clean t) → g ≠ [] →
      ∃ c, (joinSent g).getLast? = some c ∧ isTerm c = false ∧ isWS c = false := by
  intro g
  induction g with
  | nil => intro _ h; exact absurd rfl h
  | cons t ts ih =>
    intro hg _
    obtain ⟨hne, hterm, htrim⟩ : Clean t := hg t (by simp)
    cases ts with
    | nil =>
      obtain ⟨c, hc⟩ := Option.isSome_iff_exists.mp (List.getLast?_isSome.mpr hne)
      refine ⟨c, by rw [joinSent_singleton]; exact hc, ?_, ?_⟩
      · obtain ⟨ys, hys⟩ := List.getLast?_eq_some_iff.mp hc
        exact hterm c (by simp [hys])
      · exact trim_getLast_not_ws (by rwa [htrim])
    | cons u us =>
      obtain ⟨c, hc, hcterm, hcws⟩ :=
        ih (fun x hx => hg x (List.mem_cons_of_mem _ hx)) (by simp)
      refine ⟨c, ?_, hcterm, hcws⟩
      rw [joinSent_cons_of_ne_nil (show (u :: us) ≠ [] by simp)]
      have h1 : ('.' :: ' ' :: joinSent (u :: us)).getLast? = some c := by
        rw [show ('.' :: ' ' :: joinSent (u :: us)) = ['.', ' '] ++ joinSent (u :: us) from rfl,
          List.getLast?_append, hc]
        rfl
      rw [List.getLast?_append, h1]
      rfl

/-- The join of a non-empty clean group is its own trim. -/
theorem trim_joinSent {g : List (List Char)} (hg : ∀ t ∈ g, Clean t) (hne : g ≠ []) :
    trim (joinSent g) = joinSent g := by
  refine trim_eq_self ?_ ?_
  · intro c hc
    obtain ⟨t, ts, rfl⟩ := List.exists_cons_of_ne_nil hne
    obtain ⟨htne, _, htrim⟩ : Clean t := hg t (by simp)
    rw [joinSent_head? htne] at hc
    exact trim_head_not_ws (by rwa [htrim])
  · intro c hc
    obtain ⟨c', hc', _, hws⟩ := joinSent_getLast hg hne
    rw [hc'] at hc
    have := Option.some.inj hc
    subst this
    exact hws

/-- Appending one sentence to a non-empty group extends the join by `". "`. -/
theorem joinSent_append_single {g : List (List Char)} (t : List Char) (h : g ≠ []) :
    joinSent (g ++ [t]) = joinSent g ++ '.' :: ' ' :: t := by
  induction g with
  | nil => exact absurd rfl h
  | cons u us ih =>
    cases us with
    | nil =>
      rw [show (([u] : List (List Char)) ++ [t]) = u :: [t] from rfl,
        joinSent_cons_of_ne_nil (by simp), joinSent_singleton, joinSent_singleton]
    | cons v vs =>
      rw [show ((u :: v :: vs) ++ [t]) = u :: ((v :: vs) ++ [t]) from rfl,
        joinSent_cons_of_ne_nil (by simp), ih (by simp),
        joinSent_cons_of_ne_nil (show (v :: vs) ≠ [] by simp)]
      simp

theorem sentencesOf_nil : sentencesOf [] = [] := rfl

/-- A leading whitespace (non-terminator) character does not change the
sentence sequence. -/
theorem sentencesOf_cons_ws {c : Char} {l : List Char}
    (hws : isWS c = true) (hterm : isTerm c = false) :
    sentencesOf (c :: l) = sentencesOf l := by
  obtain ⟨hd, tl, heq⟩ : ∃ hd tl, splitTerm l = hd :: tl := by
    cases hsp : splitTerm l with
    | nil => exact absurd hsp (splitTerm_ne_nil l)
    | cons x y => exact ⟨x, y, rfl⟩
  unfold sentencesOf
  rw [splitTerm_nonterm hterm heq, heq, List.filter_cons, List.filter_cons]
  have htr : trim (c :: hd) = trim hd := trim_cons_ws hws
  rw [htr]
  cases hkeep : decide (0 < (trim hd).length) <;> simp [htr]

/-- Splitting off one clean sentence terminated by `'.'`. -/
theorem sentencesOf_append_dot {t z : List Char}
    (h1 : t ≠ []) (h2 : ∀ c ∈ t, isTerm c = false) (h3 : trim t = t)
    (hz : z.dropWhile isTerm = z) :
    sentencesOf (t ++ '.' :: z) = t :: sentencesOf z := by
  unfold sentencesOf
  rw [splitTerm_append_dot t z h1 h2, hz, List.filter_cons]
  have hkeep : decide (0 < (trim t).length) = true := by
    rw [h3]
    simpa [List.length_pos] using h1
  rw [hkeep]
  simp [h3]

/-- One sealed chunk followed by terminator-resistant trailing text yields its
group of sentences followed by the sentences of the trailing text. -/
theorem sentencesOf_sealChunk_append :
    ∀ (g : List (List Char)), g ≠ [] → (∀ t ∈ g, Clean t) →
      ∀ (z : List Char), z.dropWhile isTerm = z →
        sentencesOf (sealChunk g ++ z) = g ++ sentencesOf z := by
  intro g
  induction g with
  | nil => intro h; exact absurd rfl h
  | cons t ts ih =>
    intro _ hg z hz
    obtain ⟨htne, hterm, htrim⟩ : Clean t := hg t (by simp)
    cases ts with
    | nil =>
      have he : sealChunk [t] ++ z = t ++ '.' :: z := by
        simp [sealChunk, joinSent_singleton]
      rw [he, sentencesOf_append_dot htne hterm htrim hz]
      rfl
    | cons u us =>
      have he : sealChunk (t :: u :: us) ++ z
          = t ++ '.' :: (' ' :: (sealChunk (u :: us) ++ z)) := by
        simp [sealChunk, joinSent_cons_of_ne_nil (show (u :: us) ≠ [] by simp)]
      have hz2 : (' ' :: (sealChunk (u :: us) ++ z)).dropWhile isTerm
          = ' ' :: (sealChunk (u :: us) ++ z) := by
        rw [List.dropWhile_cons, if_neg (by simp [isTerm])]
      rw [he, sentencesOf_append_dot htne hterm htrim hz2,
        sentencesOf_cons_ws (by simp [isWS]) (by simp [isTerm]),
        ih (by simp) (fun x hx => hg x (List.mem_cons_of_mem _ hx)) z hz]
      rfl

/-- The head of a flattened list of sealed clean chunks, if any, is not a
terminator, so a leading `dropWhile isTerm` keeps it whole. -/
theorem dropWhile_isTerm_flatten_seals {Gs : List (List (List Char))}
    (h : ∀ g ∈ Gs, g ≠ [] ∧ ∀ t ∈ g, Clean t) :
    ((Gs.map sealChunk).flatten).dropWhile isTerm = (Gs.map sealChunk).flatten := by
  cases Gs with
  | nil => rfl
  | cons g rest =>
    obtain ⟨hgne, hgc⟩ := h g (by simp)
    obtain ⟨t, ts, rfl⟩ := List.exists_cons_of_ne_nil hgne
    obtain ⟨htne, hterm, _⟩ : Clean t := hgc t (by simp)
    obtain ⟨a, t', rfl⟩ := List.exists_cons_of_ne_nil htne
    apply dropWhile_eq_self_of_head
    intro c hc
    simp only [List.map_cons, List.flatten_cons] at hc
    have hhd : (sealChunk ((a :: t') :: ts) ++ (rest.map sealChunk).flatten).head? = some a := by
      rw [List.head?_append]
      have h1 : (sealChunk ((a :: t') :: ts)).head? = some a := by
        unfold sealChunk
        rw [List.head?_append, joinSent_head? (by simp)]
        rfl
      rw [h1]
      rfl
    rw [hhd] at hc
    have := Option.some.inj hc
    subst this
    exact hterm a (by simp)

/-- The sentences of a flattened list of sealed clean chunks are exactly the
flattened groups. -/
theorem sentencesOf_flatten_seals :
    ∀ (Gs : List (List (List Char))), (∀ g ∈ Gs, g ≠ [] ∧ ∀ t ∈ g, Clean t) →
      sentencesOf (Gs.map sealChunk).flatten = Gs.flatten := by
  intro Gs
  induction Gs with
  | nil => intro _; simp [sentencesOf_nil]
  | cons g rest ih =>
    intro h
    obtain ⟨hgne, hgc⟩ := h g (by simp)
    have hrest : ∀ g2 ∈ rest, g2 ≠ [] ∧ ∀ t ∈ g2, Clean t :=
      fun g2 hg2 => h g2 (List.mem_cons_of_mem _ hg2)
    simp only [List.map_cons, List.flatten_cons]
    rw [sentencesOf_sealChunk_append g hgne hgc _ (dropWhile_isTerm_flatten_seals hrest),
      ih hrest]

/-! ### The chunk-loop invariant and the chunker specification -/

theorem chunkLoop_nil (m : Nat) (chunks : List (List Char)) (cur : List Char) :
    chunkLoop m [] chunks cur = (chunks, cur) := rfl

theorem chunkLoop_cons (m : Nat) (s : List Char) (rest : List (List Char))
    (chunks : List (List Char)) (cur : List Char) :
    chunkLoop m (s :: rest) chunks cur =
      if m < cur.length + (trim s).length ∧ 0 < cur.length then
        chunkLoop m rest (chunks ++ [trim cur ++ ['.']]) (trim s)
      else
        chunkLoop m rest chunks (cur ++ (if cur.isEmpty then [] else ['.', ' ']) ++ trim s) :=
  rfl

/-- Invariant of the greedy loop: started on sealed clean groups `Gs` and a
running buffer that joins the clean group `G`, it produces sealed clean groups
whose flattening appends the trimmed remaining sentences. -/
theorem chunkLoop_spec (m : Nat) :
    ∀ (sents : List (List Char)) (Gs : List (List (List Char))) (G : List (List Char)),
      (∀ s ∈ sents, 0 < (trim s).length ∧ ∀ c ∈ s, isTerm c = false) →
      (∀ g ∈ Gs, g ≠ [] ∧ ∀ t ∈ g, Clean t) →
      (∀ t ∈ G, Clean t) →
      ∃ Gs' : List (List (List Char)),
        (∀ g ∈ Gs', g ≠ [] ∧ ∀ t ∈ g, Clean t) ∧
        finalizeChunks (chunkLoop m sents (Gs.map sealChunk) (joinSent G)).1
            (chunkLoop m sents (Gs.map sealChunk) (joinSent G)).2 = Gs'.map sealChunk ∧
        Gs'.flatten = Gs.flatten ++ G ++ sents.map trim := by
  intro sents
  induction sents with
  | nil =>
    intro Gs G _ hGs hG
    rw [chunkLoop_nil]
    by_cases hGnil : G = []
    · subst hGnil
      refine ⟨Gs, hGs, ?_, by simp⟩
      simp [finalizeChunks, joinSent_nil, trim_nil]
    · have htj : trim (joinSent G) = joinSent G := trim_joinSent hG hGnil
      have hjne : joinSent G ≠ [] := joinSent_ne_nil (fun t ht => (hG t ht).1) hGnil
      obtain ⟨c, hc, hcterm, _⟩ := joinSent_getLast hG hGnil
      have hcdot : ¬ (joinSent G).getLast? = some '.' := by
        rw [hc]
        intro hcc
        have := Option.some.inj hcc
        subst this
        simp [isTerm] at hcterm
      refine ⟨Gs ++ [G], ?_, ?_, ?_⟩
      · intro g hgmem
        rcases List.mem_append.mp hgmem with h | h
        · exact hGs g h
        · simp at h; subst h; exact ⟨hGnil, hG⟩
      · unfold finalizeChunks
        rw [htj, if_pos (by simpa [List.length_pos] using hjne), if_neg hcdot,
          List.map_append]
        rfl
      · simp
  | cons s rest ih =>
    intro Gs G hs hGs hG
    have hs0 := hs s (by simp)
    have hClean_t : Clean (trim s) := by
      refine ⟨?_, ?_, trim_trim s⟩
      · intro h0; rw [h0] at hs0; simp at hs0
      · intro c hc; exact hs0.2 c (mem_trim hc)
    have hsrest : ∀ x ∈ rest, 0 < (trim x).length ∧ ∀ c ∈ x, isTerm c = false :=
      fun x hx => hs x (List.mem_cons_of_mem _ hx)
    rw [chunkLoop_cons]
    by_cases hcond : m < (joinSent G).length + (trim s).length ∧ 0 < (joinSent G).length
    · rw [if_pos hcond]
      have hGne : G ≠ [] := by
        intro h0
        rw [h0, joinSent_nil] at hcond
        simp at hcond
      have hchunks : Gs.map sealChunk ++ [trim (joinSent G) ++ ['.']]
          = (Gs ++ [G]).map sealChunk := by
        rw [trim_joinSent hG hGne, List.map_append]
        rfl
      rw [hchunks]
      have hwfGG : ∀ g ∈ Gs ++ [G], g ≠ [] ∧ ∀ t ∈ g, Clean t := by
        intro g hgmem
        rcases List.mem_append.mp hgmem with h | h
        · exact hGs g h
        · simp at h; subst h; exact ⟨hGne, hG⟩
      obtain ⟨Gs', hwf, heq, hflat⟩ := ih (Gs ++ [G]) [trim s] hsrest hwfGG
        (by intro x hx; simp at hx; subst hx; exact hClean_t)
      simp only [joinSent_singleton] at heq
      refine ⟨Gs', hwf, heq, ?_⟩
      rw [hflat]
      simp [List.flatten_append, List.append_assoc]
    · rw [if_neg hcond]
      by_cases hGnil : G = []
      · subst hGnil
        have hcur0 : joinSent ([] : List (List Char))
            ++ (if (joinSent ([] : List (List Char))).isEmpty then [] else ['.', ' '])
            ++ trim s = joinSent [trim s] := by
          simp [joinSent_nil, joinSent_singleton]
        rw [hcur0]
        obtain ⟨Gs', hwf, heq, hflat⟩ := ih Gs [trim s] hsrest hGs
          (by intro x hx; simp at hx; subst hx; exact hClean_t)
        refine ⟨Gs', hwf, heq, ?_⟩
        rw [hflat]
        simp
      · have hjne : joinSent G ≠ [] := joinSent_ne_nil (fun t ht => (hG t ht).1) hGnil
        have hemp : (joinSent G).isEmpty = false := List.isEmpty_eq_false.mpr hjne
        have hcur : joinSent G ++ (if (joinSent G).isEmpty then [] else ['.', ' '])
            ++ trim s = joinSent (G ++ [trim s]) := by
          rw [hemp]
          rw [joinSent_append_single (trim s) hGnil, List.append_assoc]
          rfl
        rw [hcur]
        obtain ⟨Gs', hwf, heq, hflat⟩ := ih Gs (G ++ [trim s]) hsrest hGs
          (by
            intro x hx
            rcases List.mem_append.mp hx with h | h
            · exact hG x h
            · simp at h; subst h; exact hClean_t)
        refine ⟨Gs', hwf, heq, ?_⟩
        rw [hflat]
        simp [List.append_assoc]

/-- Specification of `splitTextIntoChunks`: either there are no sentences and
the original text is returned whole, or the result is a sequence of sealed
clean groups whose sentences are exactly the trimmed fragments of the text. -/
theorem splitTextIntoChunks_spec (text : List Char) (m : Nat) :
    (((splitTerm text).filter fun s => decide (0 < (trim s).length)) = [] ∧
      splitTextIntoChunks text m = [text]) ∨
    ((((splitTerm text).filter fun s => decide (0 < (trim s).length)) ≠ []) ∧
      ∃ Gs' : List (List (List Char)),
        (∀ g ∈ Gs', g ≠ [] ∧ ∀ t ∈ g, Clean t) ∧
        splitTextIntoChunks text m = Gs'.map sealChunk ∧
        Gs'.flatten = ((splitTerm text).filter fun s => decide (0 < (trim s).length)).map trim) := by
  by_cases hnil : ((splitTerm text).filter fun s => decide (0 < (trim s).length)) = []
  · left
    refine ⟨hnil, ?_⟩
    unfold splitTextIntoChunks
    rw [hnil]
    simp [chunkLoop_nil, finalizeChunks, trim_nil]
  · right
    refine ⟨hnil, ?_⟩
    have hsent : ∀ s ∈ ((splitTerm text).filter fun s => decide (0 < (trim s).length)),
        0 < (trim s).length ∧ ∀ c ∈ s, isTerm c = false := by
      intro s hsmem
      obtain ⟨hmem, hp⟩ := List.mem_filter.mp hsmem
      exact ⟨of_decide_eq_true hp, fun c hc => no_term_of_mem_splitTerm hmem hc⟩
    obtain ⟨Gs', hwf, heq, hflat⟩ :=
      chunkLoop_spec m ((splitTerm text).filter fun s => decide (0 < (trim s).length)) [] []
        hsent (by simp) (by simp)
    simp only [List.map_nil, joinSent_nil] at heq
    simp only [List.flatten_nil, List.nil_append] at hflat
    have hne2 : Gs'.map sealChunk ≠ [] := by
      intro h0
      have hGs'nil : Gs' = [] := by simpa using h0
      rw [hGs'nil] at hflat
      simp only [List.flatten_nil] at hflat
      exact hnil (by
        have := hflat.symm
        simpa using this)
    refine ⟨Gs', hwf, ?_, hflat⟩
    unfold splitTextIntoChunks
    simp only [heq]
    rw [if_pos (by simpa [List.length_pos] using hne2)]

/-! ### Helper lemmas for `cleanExtractedText` -/

theorem collapseWS_nil : collapseWS [] = [] := rfl

theorem collapseWS_ws_nil {a : Char} (h : isWS a = true) : collapseWS [a] = [' '] := by
  simp [collapseWS, h]

theorem collapseWS_ws_ws {a a2 : Char} {as : List Char}
    (h : isWS a = true) (h2 : isWS a2 = true) :
    collapseWS (a :: a2 :: as) = collapseWS (a2 :: as) := by
  simp [collapseWS, h, h2]

theorem collapseWS_ws_nonws {a a2 : Char} {as : List Char}
    (h : isWS a = true) (h2 : isWS a2 = false) :
    collapseWS (a :: a2 :: as) = ' ' :: collapseWS (a2 :: as) := by
  simp [collapseWS, h, h2]

theorem collapseWS_nonws {a : Char} {as : List Char} (h : isWS a = false) :
    collapseWS (a :: as) = a :: collapseWS as := by
  simp [collapseWS, h]

/-- Characters in a collapse result are single spaces or non-whitespace
characters of the input. -/
theorem mem_collapseWS : ∀ {l : List Char} {c : Char},
    c ∈ collapseWS l → c = ' ' ∨ (c ∈ l ∧ isWS c = false) := by
  intro l
  induction l with
  | nil => intro c hc; rw [collapseWS_nil] at hc; cases hc
  | cons a as ih =>
    intro c hc
    by_cases ha : isWS a = true
    · cases as with
      | nil =>
        rw [collapseWS_ws_nil ha] at hc
        simp at hc
        exact Or.inl hc
      | cons a2 as2 =>
        by_cases ha2 : isWS a2 = true
        · rw [collapseWS_ws_ws ha ha2] at hc
          rcases ih hc with h | ⟨hmem, hws⟩
          · exact Or.inl h
          · exact Or.inr ⟨List.mem_cons_of_mem _ hmem, hws⟩
        · have ha2' : isWS a2 = false := by simpa using ha2
          rw [collapseWS_ws_nonws ha ha2'] at hc
          rcases List.mem_cons.mp hc with h | h
          · exact Or.inl h
          · rcases ih h with h2 | ⟨hmem, hws⟩
            · exact Or.inl h2
            · exact Or.inr ⟨List.mem_cons_of_mem _ hmem, hws⟩
    · have ha' : isWS a = false := by simpa using ha
      rw [collapseWS_nonws ha'] at hc
      rcases List.mem_cons.mp hc with h | h
      · subst h; exact Or.inr ⟨List.mem_cons_self _ _, ha'⟩
      · rcases ih h with h2 | ⟨hmem, hws⟩
        · exact Or.inl h2
        · exact Or.inr ⟨List.mem_cons_of_mem _ hmem, hws⟩

/-- A collapse result never contains two adjacent whitespace characters. -/
theorem chain_collapseWS : ∀ (l : List Char), List.Chain' SpacedOK (collapseWS l) := by
  intro l
  induction l with
  | nil => rw [collapseWS_nil]; exact List.chain'_nil
  | cons a as ih =>
    by_cases ha : isWS a = true
    · cases as with
      | nil => rw [collapseWS_ws_nil ha]; simp
      | cons a2 as2 =>
        by_cases ha2 : isWS a2 = true
        · rw [collapseWS_ws_ws ha ha2]; exact ih
        · have ha2' : isWS a2 = false := by simpa using ha2
          rw [collapseWS_ws_nonws ha ha2']
          rw [List.chain'_cons']
          refine ⟨?_, ih⟩
          intro y hy
          rw [collapseWS_nonws ha2'] at hy
          simp only [List.head?_cons, Option.mem_def, Option.some.injEq] at hy
          subst hy
          exact Or.inr ha2'
    · have ha' : isWS a = false := by simpa using ha
      rw [collapseWS_nonws ha', List.chain'_cons']
      exact ⟨fun y _ => Or.inl ha', ih⟩

/-- `collapseWS` fixes a list whose whitespace is single spaces with no two
adjacent. -/
theorem collapseWS_eq_self : ∀ {z : List Char},
    (∀ c ∈ z, isWS c = true → c = ' ') → List.Chain' SpacedOK z → collapseWS z = z := by
  intro z
  induction z with
  | nil => intro _ _; rfl
  | cons a as ih =>
    intro hall hchain
    by_cases ha : isWS a = true
    · have haeq : a = ' ' := hall a (by simp) ha
      cases as with
      | nil => rw [collapseWS_ws_nil ha, haeq]
      | cons a2 as2 =>
        have hR : SpacedOK a a2 := (List.chain'_cons'.mp hchain).1 a2 (by simp)
        have ha2 : isWS a2 = false := by
          rcases hR with h | h
          · rw [ha] at h; cases h
          · exact h
        rw [collapseWS_ws_nonws ha ha2, haeq]
        congr 1
        exact ih (fun c hc hw => hall c (List.mem_cons_of_mem _ hc) hw)
          (List.chain'_cons'.mp hchain).2
    · have ha' : isWS a = false := by simpa using ha
      rw [collapseWS_nonws ha']
      congr 1
      exact ih (fun c hc hw => hall c (List.mem_cons_of_mem _ hc) hw)
        (List.chain'_cons'.mp hchain).2

theorem chain'_trim {R : Char → Char → Prop} {l : List Char}
    (h : List.Chain' R l) : List.Chain' R (trim l) := by
  have h1 : List.Chain' R (l.dropWhile isWS) := h.suffix (List.dropWhile_suffix isWS)
  unfold trim dropEndWhile
  rw [List.chain'_reverse]
  exact (List.chain'_reverse.mpr h1).suffix (List.dropWhile_suffix isWS)

theorem replaceNlNl_nil : replaceNlNl [] = [] := by
  rw [replaceNlNl.eq_def]

/-- A character other than a newline is copied through unchanged. -/
theorem replaceNlNl_cons_of_ne {a : Char} {as : List Char} (ha : ¬ a = '\n') :
    replaceNlNl (a :: as) = a :: replaceNlNl as := by
  rw [replaceNlNl.eq_def]
  simp [ha]

/-- `replaceNlNl` is the identity on newline-free text. -/
theorem replaceNlNl_eq_self : ∀ {l : List Char}, (∀ c ∈ l, ¬ c = '\n') →
    replaceNlNl l = l := by
  intro l
  induction l with
  | nil => intro _; exact replaceNlNl_nil
  | cons a as ih =>
    intro h
    rw [replaceNlNl_cons_of_ne (h a (by simp)),
      ih (fun c hc => h c (List.mem_cons_of_mem _ hc))]

theorem not_nl_mem_collapseWS {l : List Char} : '\n' ∉ collapseWS l := by
  intro h
  rcases mem_collapseWS h with h1 | ⟨_, h2⟩
  · exact absurd h1 (by decide)
  · exact absurd h2 (by decide)

/-! ### Helper lemmas on the engine state machine -/

/-- Every single operation preserves the invariant `isPaused ⇒ isPlaying`. -/
theorem step_preserves_inv (s : TextToSpeechEngine.State) (op : TextToSpeechEngine.Op)
    (h : s.isPaused = true → s.isPlaying = true) :
    (TextToSpeechEngine.step s op).isPaused = true →
      (TextToSpeechEngine.step s op).isPlaying = true := by
  rcases s with ⟨p, q, u⟩
  cases op <;> cases p <;> cases q <;> cases u <;> revert h <;> decide

/-! ### Claims about the engine wrapper and the sequencer handlers -/

/-- C5: the promise returned by `speak` resolves on a normal end, resolves on
the error code `"canceled"`, and rejects with an error carrying the underlying
code on any other error code. -/
theorem claim_C5_speak_settle (e : String) :
    TextToSpeechEngine.settle .ended = .ok () ∧
    TextToSpeechEngine.settle (.errored "canceled") = .ok () ∧
    (e ≠ "canceled" →
      TextToSpeechEngine.settle (.errored e) = .error ("Speech synthesis error: " ++ e)) := by
  refine ⟨rfl, by simp [TextToSpeechEngine.settle], fun h => ?_⟩
  simp [TextToSpeechEngine.settle, h]

/-- Witness for C5 at the concrete non-cancellation error code
`"interrupted"`. -/
theorem claim_C5_witness :
    TextToSpeechEngine.settle (.errored "interrupted") =
      .error ("Speech synthesis error: " ++ "interrupted") :=
  (claim_C5_speak_settle "interrupted").2.2 (by decide)

/-- C6: starting from the initial engine state, after any sequence of
operations and callbacks of the speech engine wrapper, `isPaused` implies
`isPlaying`. -/
theorem claim_C6_paused_implies_playing (ops : List TextToSpeechEngine.Op)
    (h : (ops.foldl TextToSpeechEngine.step TextToSpeechEngine.init).isPaused = true) :
    (ops.foldl TextToSpeechEngine.step TextToSpeechEngine.init).isPlaying = true := by
  suffices H : ∀ (s : TextToSpeechEngine.State), (s.isPaused = true → s.isPlaying = true) →
      ((ops.foldl TextToSpeechEngine.step s).isPaused = true →
        (ops.foldl TextToSpeechEngine.step s).isPlaying = true) by
    exact H TextToSpeechEngine.init (by decide) h
  clear h
  induction ops with
  | nil => intro s hs; exact hs
  | cons op rest ih =>
    intro s hs
    exact ih (TextToSpeechEngine.step s op) (step_preserves_inv s op hs)

/-- Witness for C6: a concrete run `speak`, `onstart`, `pause` ends paused,
hence playing. -/
theorem claim_C6_witness :
    (([TextToSpeechEngine.Op.speakCall, TextToSpeechEngine.Op.onStart,
        TextToSpeechEngine.Op.pause].foldl
      TextToSpeechEngine.step TextToSpeechEngine.init).isPlaying = true) :=
  claim_C6_paused_implies_playing
    [TextToSpeechEngine.Op.speakCall, TextToSpeechEngine.Op.onStart,
      TextToSpeechEngine.Op.pause] (by decide)

/-- C7: `stop()` is idempotent and unconditionally yields the `Idle` state
(`isPlaying = false`, `isPaused = false`, no current utterance), from any
state. -/
theorem claim_C7_stop_idempotent (s : TextToSpeechEngine.State) :
    TextToSpeechEngine.stop (TextToSpeechEngine.stop s) = TextToSpeechEngine.stop s ∧
    TextToSpeechEngine.stop s = TextToSpeechEngine.init :=
  ⟨rfl, rfl⟩

/-- C8: `pause()` is a no-op unless the engine is speaking (`isPlaying` and
not `isPaused`); from the speaking state it only sets `isPaused`. -/
theorem claim_C8_pause_frame (s : TextToSpeechEngine.State) :
    (s.isPlaying = false → TextToSpeechEngine.pause s = s) ∧
    (s.isPaused = true → TextToSpeechEngine.pause s = s) ∧
    (s.isPlaying = true → s.isPaused = false →
      TextToSpeechEngine.pause s = { s with isPaused := true }) := by
  refine ⟨fun h => ?_, fun h => ?_, fun h1 h2 => ?_⟩
  · simp [TextToSpeechEngine.pause, h]
  · simp [TextToSpeechEngine.pause, h]
  · simp [TextToSpeechEngine.pause, h1, h2]

/-- Witness for C8: `pause` moves the concrete speaking state to paused, and
is a no-op on `Idle`. -/
theorem claim_C8_witness :
    TextToSpeechEngine.pause ⟨true, false, true⟩ = ⟨true, true, true⟩ ∧
    TextToSpeechEngine.pause TextToSpeechEngine.init = TextToSpeechEngine.init :=
  ⟨(claim_C8_pause_frame ⟨true, false, true⟩).2.2 rfl rfl,
    (claim_C8_pause_frame TextToSpeechEngine.init).1 rfl⟩

/-- C9: `next()` at the last index and `previous()` at index 0 are no-ops;
otherwise they move the index by one and stay within `[0, chunkCount - 1]`
(the lower bound holds in `Nat` by construction). -/
theorem claim_C9_navigation (c n : Nat) :
    (c = n - 1 → TTSControls.handleNext c n = c) ∧
    (TTSControls.handlePrevious 0 = 0) ∧
    (c < n - 1 → TTSControls.handleNext c n = c + 1) ∧
    (0 < c → TTSControls.handlePrevious c = c - 1) ∧
    (c ≤ n - 1 → TTSControls.handleNext c n ≤ n - 1 ∧ TTSControls.handlePrevious c ≤ n - 1) := by
  unfold TTSControls.handleNext TTSControls.handlePrevious
  refine ⟨fun h => ?_, ?_, fun h => ?_, fun h => ?_, fun h => ?_⟩
  · split <;> omega
  · split <;> omega
  · split <;> omega
  · split <;> omega
  · constructor <;> split <;> omega

/-- Witness for C9 at concrete indices with 3 chunks. -/
theorem claim_C9_witness :
    TTSControls.handleNext 1 3 = 2 ∧ TTSControls.handlePrevious 1 = 0 ∧
    TTSControls.handleNext 2 3 = 2 :=
  ⟨(claim_C9_navigation 1 3).2.2.1 (by decide),
    (claim_C9_navigation 1 3).2.2.2.1 (by decide),
    (claim_C9_navigation 2 3).1 (by decide)⟩

/-- C1 (code evaluation at the failing input): the spec's end-to-end scenario
is a 3-chunk sequence played from idle with only chunk 2's synthesis failing.
Invoked from idle, the `useCallback` closure has captured
`isPlaying = false`, so the loop's manual-stop check breaks before any
`speak` call: the list of invoked chunk indices is empty — in particular the
third chunk (index 2) is never played, whichever chunks would have failed. -/
theorem claim_C1_code_at_failing_input :
    TTSControls.handlePlay ⟨false, false, 0⟩ 3 ⟨false, false, 0⟩ = (⟨false, false, 0⟩, []) ∧
    2 ∉ (TTSControls.handlePlay ⟨false, false, 0⟩ 3 ⟨false, false, 0⟩).2 := by
  constructor
  · rfl
  · simp [TTSControls.handlePlay, TTSControls.playLoop, TTSControls.playLoopAux]

/-- C2: for non-empty text and positive chunk size, the chunker never returns
an empty sequence, and when the sentence-splitting pass yields no sentences it
returns the original text as a single-element sequence. -/
theorem claim_C2_split_nonempty (text : List Char) (m : Nat)
    (htext : text ≠ []) (hm : 0 < m) :
    splitTextIntoChunks text m ≠ [] ∧
    (((splitTerm text).filter fun s => decide (0 < (trim s).length)) = [] →
      splitTextIntoChunks text m = [text]) := by
  rcases splitTextIntoChunks_spec text m with ⟨hnil, heq⟩ | ⟨hnil, Gs', hwf, heq, hflat⟩
  · exact ⟨by rw [heq]; simp, fun _ => heq⟩
  · refine ⟨?_, fun h => absurd h hnil⟩
    rw [heq]
    intro h0
    have hGs'nil : Gs' = [] := by simpa using h0
    rw [hGs'nil] at hflat
    simp only [List.flatten_nil] at hflat
    exact hnil (by simpa using hflat.symm)

/-- Witness for C2 at the concrete text `"Hi."` and the default chunk size. -/
theorem claim_C2_witness : splitTextIntoChunks "Hi.".toList 300 ≠ [] :=
  (claim_C2_split_nonempty "Hi.".toList 300 (by decide) (by decide)).1

/-- C3: round-trip — the sentence sequence of the concatenation of all chunks
(each chunk carrying its trailing-period padding, which the sentence splitting
strips again) is exactly the sentence sequence of the original text. -/
theorem claim_C3_roundtrip (text : List Char) (m : Nat)
    (htext : text ≠ []) (hm : 0 < m) :
    sentencesOf (splitTextIntoChunks text m).flatten = sentencesOf text := by
  rcases splitTextIntoChunks_spec text m with ⟨hnil, heq⟩ | ⟨hnil, Gs', hwf, heq, hflat⟩
  · rw [heq]; simp
  · rw [heq, sentencesOf_flatten_seals Gs' hwf, hflat]
    rfl

/-- Witness for C3 at the concrete text `"A. B. C."` with chunk size 3. -/
theorem claim_C3_witness :
    sentencesOf (splitTextIntoChunks "A. B. C.".toList 3).flatten
      = sentencesOf "A. B. C.".toList :=
  claim_C3_roundtrip "A. B. C.".toList 3 (by decide) (by decide)

/-- C4 counterexample: with `maxChunkSize = 3` the sentences "A" and "B" are
packed into one chunk, because the size check counts only the buffer and the
next sentence (1 + 1 ≤ 3) and not the `". "` separator the buffer gains, so
the result is not one chunk per sentence. -/
theorem claim_C4_counterexample :
    splitTextIntoChunks "A. B. C.".toList 3
      ≠ ["A.".toList, "B.".toList, "C.".toList] := by
  decide

/-- C4 amended: `splitTextIntoChunks("A. B. C.", 3)` returns
`["A. B.", "C."]` — "A" and "B" share a chunk since the separator is not
counted, and only "C" is sealed alone. -/
theorem claim_C4_amended :
    splitTextIntoChunks "A. B. C.".toList 3 = ["A. B.".toList, "C.".toList] := by
  decide

/-- C10: `cleanExtractedText` is idempotent — its output has every whitespace
run already collapsed to a single space and both ends trimmed, so a second
pass changes nothing. -/
theorem claim_C10_clean_idempotent (t : List Char) :
    cleanExtractedText (cleanExtractedText t) = cleanExtractedText t := by
  unfold cleanExtractedText
  have hrepl : ∀ (x : List Char), replaceNlNl (collapseWS x) = collapseWS x := by
    intro x
    refine replaceNlNl_eq_self ?_
    intro c hc h0
    subst h0
    exact not_nl_mem_collapseWS hc
  rw [hrepl t]
  have hcoll : collapseWS (trim (collapseWS t)) = trim (collapseWS t) := by
    refine collapseWS_eq_self ?_ (chain'_trim (chain_collapseWS t))
    intro c hc hws
    rcases mem_collapseWS (mem_trim hc) with h | ⟨_, h2⟩
    · exact h
    · rw [hws] at h2; cases h2
  rw [hcoll]
  have hnl : ∀ c ∈ trim (collapseWS t), ¬ c = '\n' := by
    intro c hc h0
    subst h0
    exact not_nl_mem_collapseWS (mem_trim hc)
  rw [replaceNlNl_eq_self hnl, trim_trim]

end DocTTS
